import Mathlib

/-!
Shallow embedding of the quantization arithmetic in
`tutorials/quantization_tutorial.ipynb` (fms-model-optimizer).

The notebook's core is the asymmetric quantize-dequantize transform

    def simpleQuantizer(input, n_bit, clip_min, clip_max):
        zp = clip_min
        stepsize = (clip_max - zp) / (2 ** n_bit - 1)
        y_scaled = (torch.clamp(input, clip_min, clip_max) - clip_min) / stepsize
        y_int    = torch.round(y_scaled)
        return y_int * stepsize + zp

together with a symmetric variant demonstrated in the
"symmetric vs asymmetric" cell:

    clip_min_i = -max(clip_max, np.abs(clip_min))
    nbins = 2**n_bit - 2
    scale = (clip_max - clip_min_i)/nbins
    zp = 0
    y_int_i = np.round( (np.clip(raw_i, clip_min, clip_max) - zp)/scale )
    yq_i = y_int_i*scale + zp

Scalars are embedded as ℚ (the claims are about the ideal arithmetic of the
algorithm; float-specific behavior is out of scope).  `torch.round` and
`np.round` round to the nearest integer with ties to even, which is what
`roundHalfEven` below implements.  `torch.clamp(x, lo, hi)` computes
`min (max x lo) hi`.
-/

namespace QuantTutorial

/-- `torch.clamp(input, clip_min, clip_max)` / `np.clip`: take the max with the
lower bound first, then the min with the upper bound (so the upper bound wins
when the bounds are reversed). -/
def clampQ (x lo hi : ℚ) : ℚ := min (max x lo) hi

/-- `torch.round` / `np.round`: round to the nearest integer, breaking ties
(fractional part exactly 1/2) toward the even integer. -/
def roundHalfEven (x : ℚ) : ℤ :=
  if x - ⌊x⌋ < 1/2 then ⌊x⌋
  else if 1/2 < x - ⌊x⌋ then ⌊x⌋ + 1
  else if ⌊x⌋ % 2 = 0 then ⌊x⌋ else ⌊x⌋ + 1

/-- `stepsize = (clip_max - zp) / (2 ** n_bit - 1)` with `zp = clip_min`. -/
def stepsize (n_bit : ℕ) (clip_min clip_max : ℚ) : ℚ :=
  (clip_max - clip_min) / (2 ^ n_bit - 1)

/-- `y_scaled = (torch.clamp(input, clip_min, clip_max) - clip_min) / stepsize`. -/
def y_scaled (input : ℚ) (n_bit : ℕ) (clip_min clip_max : ℚ) : ℚ :=
  (clampQ input clip_min clip_max - clip_min) / stepsize n_bit clip_min clip_max

/-- `y_int = torch.round(y_scaled)`: the integer code. -/
def y_int (input : ℚ) (n_bit : ℕ) (clip_min clip_max : ℚ) : ℤ :=
  roundHalfEven (y_scaled input n_bit clip_min clip_max)

/-- The notebook's `simpleQuantizer`: asymmetric quantize-dequantize,
`y_int * stepsize + zp` with `zp = clip_min`. -/
def simpleQuantizer (input : ℚ) (n_bit : ℕ) (clip_min clip_max : ℚ) : ℚ :=
  y_int input n_bit clip_min clip_max * stepsize n_bit clip_min clip_max + clip_min

/-- Symmetric branch: `clip_min_i = -max(clip_max, np.abs(clip_min))`. -/
def clip_min_i (clip_min clip_max : ℚ) : ℚ := -max clip_max |clip_min|

/-- Symmetric branch: `scale = (clip_max - clip_min_i)/(2**n_bit - 2)`. -/
def symScale (n_bit : ℕ) (clip_min clip_max : ℚ) : ℚ :=
  (clip_max - clip_min_i clip_min clip_max) / (2 ^ n_bit - 2)

/-- Symmetric branch: `y_int_i = np.round((np.clip(x, clip_min, clip_max) - zp)/scale)`
with `zp = 0`.  Note the clamp uses the original bounds, not `clip_min_i`. -/
def symCode (x : ℚ) (n_bit : ℕ) (clip_min clip_max : ℚ) : ℤ :=
  roundHalfEven ((clampQ x clip_min clip_max - 0) / symScale n_bit clip_min clip_max)

/-- Symmetric branch: `yq_i = y_int_i*scale + zp` with `zp = 0`. -/
def symQuantizer (x : ℚ) (n_bit : ℕ) (clip_min clip_max : ℚ) : ℚ :=
  symCode x n_bit clip_min clip_max * symScale n_bit clip_min clip_max + 0

/-- The only exception Python can raise while running `simpleQuantizer` on the
notebook's scalar parameters: `(clip_max - zp) / (2 ** n_bit - 1)` divides two
Python numbers by the integer `2 ** n_bit - 1`, which raises
`ZeroDivisionError` when that integer is zero (`n_bit = 0`).  The function body
contains no parameter check of any kind; no `InvalidParameter` error exists. -/
inductive PyError where
  | zeroDivisionError
  deriving DecidableEq

/-- Dynamic behavior of a call `simpleQuantizer(x, n_bit, clip_min, clip_max)`:
the step-size division raises `ZeroDivisionError` iff `2 ^ n_bit - 1 = 0`;
otherwise the body runs to completion and returns a value, with no validation
of `n_bit`, `clip_min` or `clip_max`. -/
def simpleQuantizerRun (x : ℚ) (n_bit : ℕ) (clip_min clip_max : ℚ) :
    Except PyError ℚ :=
  if (2 ^ n_bit - 1 : ℚ) = 0 then .error .zeroDivisionError
  else .ok (simpleQuantizer x n_bit clip_min clip_max)

/-- Modelled from the spec (step 5 of §4.1): "the reference behavior rounds
half-way cases away from zero".  Round to the nearest integer, ties away from
zero. -/
def roundHalfAwayFromZero (x : ℚ) : ℤ :=
  if 0 ≤ x then ⌊x + 1/2⌋ else -⌊-x + 1/2⌋

/-- Modelled from the spec (§4.1, asymmetric algorithm steps 1-6), with the
spec's stated reference rounding (ties away from zero):
`round((clamp(x, clip_lower, clip_upper) - clip_lower) / step) * step + clip_lower`
where `step = (clip_upper - clip_lower) / (2^bit_width - 1)`. -/
def quantizeSpecAsym (x : ℚ) (bit_width : ℕ) (clip_lower clip_upper : ℚ) : ℚ :=
  let step := (clip_upper - clip_lower) / (2 ^ bit_width - 1)
  roundHalfAwayFromZero ((clampQ x clip_lower clip_upper - clip_lower) / step)
    * step + clip_lower

/-! ### Basic facts about `roundHalfEven` -/

lemma roundHalfEven_eq_floor_or_succ (x : ℚ) :
    roundHalfEven x = ⌊x⌋ ∨ roundHalfEven x = ⌊x⌋ + 1 := by
  unfold roundHalfEven
  split_ifs <;> simp

lemma floor_le_roundHalfEven (x : ℚ) : ⌊x⌋ ≤ roundHalfEven x := by
  rcases roundHalfEven_eq_floor_or_succ x with h | h <;> omega

lemma roundHalfEven_le_floor_succ (x : ℚ) : roundHalfEven x ≤ ⌊x⌋ + 1 := by
  rcases roundHalfEven_eq_floor_or_succ x with h | h <;> omega

lemma roundHalfEven_le_add_half (x : ℚ) : (roundHalfEven x : ℚ) ≤ x + 1/2 := by
  have hfl : (⌊x⌋ : ℚ) ≤ x := Int.floor_le x
  unfold roundHalfEven
  split_ifs with h1 h2 h3 <;> push_cast <;> linarith

lemma sub_half_le_roundHalfEven (x : ℚ) : x - 1/2 ≤ (roundHalfEven x : ℚ) := by
  have hfl : x - 1 < (⌊x⌋ : ℚ) := Int.sub_one_lt_floor x
  unfold roundHalfEven
  split_ifs with h1 h2 h3 <;> push_cast <;> linarith

lemma roundHalfEven_intCast (n : ℤ) : roundHalfEven (n : ℚ) = n := by
  norm_num [roundHalfEven]

lemma roundHalfEven_le_int {x : ℚ} {n : ℤ} (h : x ≤ (n : ℚ)) :
    roundHalfEven x ≤ n := by
  have h1 := roundHalfEven_le_add_half x
  have h2 : (roundHalfEven x : ℚ) < n + 1 := by linarith
  exact_mod_cast Int.lt_add_one_iff.mp (by exact_mod_cast h2)

lemma int_le_roundHalfEven {x : ℚ} {n : ℤ} (h : (n : ℚ) ≤ x) :
    n ≤ roundHalfEven x := by
  have h1 : n ≤ ⌊x⌋ := Int.le_floor.mpr h
  exact le_trans h1 (floor_le_roundHalfEven x)

lemma roundHalfEven_mono {a b : ℚ} (hab : a ≤ b) :
    roundHalfEven a ≤ roundHalfEven b := by
  have hfab : ⌊a⌋ ≤ ⌊b⌋ := Int.floor_mono hab
  rcases lt_or_eq_of_le hfab with hlt | heq
  · calc roundHalfEven a ≤ ⌊a⌋ + 1 := roundHalfEven_le_floor_succ a
      _ ≤ ⌊b⌋ := by omega
      _ ≤ roundHalfEven b := floor_le_roundHalfEven b
  · unfold roundHalfEven
    rw [← heq]
    have hfa : (⌊a⌋ : ℚ) ≤ a := Int.floor_le a
    have hr : a - ⌊a⌋ ≤ b - ⌊a⌋ := by linarith
    split_ifs with h1 h2 h3 h4 h5 h6 h7 h8 h9 h10 h11 <;> try omega
    all_goals (exfalso; rw [← heq] at *; linarith)

lemma roundHalfEven_abs_sub_le (x : ℚ) :
    |(roundHalfEven x : ℚ) - x| ≤ 1/2 := by
  have h1 := roundHalfEven_le_add_half x
  have h2 := sub_half_le_roundHalfEven x
  rw [abs_le]
  constructor <;> linarith

/-- If the rounding went up by exactly one half, the result is even
(the tie-breaking direction of `torch.round`). -/
lemma roundHalfEven_even_of_eq_add_half {x : ℚ}
    (h : (roundHalfEven x : ℚ) = x + 1/2) : roundHalfEven x % 2 = 0 := by
  have hfl : (⌊x⌋ : ℚ) ≤ x := Int.floor_le x
  unfold roundHalfEven at *
  split_ifs at h ⊢ with h1 h2 h3
  · exfalso; linarith
  · exfalso
    have : x - ⌊x⌋ = 1/2 := by push_cast at h; linarith
    linarith
  · exfalso; linarith
  · omega

/-- If the rounding went down by exactly one half, the result is even. -/
lemma roundHalfEven_even_of_eq_sub_half {x : ℚ}
    (h : (roundHalfEven x : ℚ) = x - 1/2) : roundHalfEven x % 2 = 0 := by
  have hfl : (⌊x⌋ : ℚ) ≤ x := Int.floor_le x
  have hfl2 : x - 1 < (⌊x⌋ : ℚ) := Int.sub_one_lt_floor x
  unfold roundHalfEven at *
  split_ifs at h ⊢ with h1 h2 h3
  · exfalso
    have : x - ⌊x⌋ = 1/2 := by linarith
    linarith
  · exfalso; push_cast at h; linarith
  · exact h3
  · exfalso; push_cast at h; linarith

/-- Ties-to-even rounding moves the two endpoints of an interval of even
integer length `L` at most `L` apart: the extreme slack of `+1/2` at the top
and `-1/2` at the bottom cannot both occur, by parity of the tie direction. -/
lemma roundHalfEven_sub_le_of_even {a b : ℚ} {L : ℤ}
    (hL : L % 2 = 0) (hab : b - a ≤ (L : ℚ)) :
    roundHalfEven b - roundHalfEven a ≤ L := by
  have h1 := roundHalfEven_le_add_half b
  have h2 := sub_half_le_roundHalfEven a
  have hle : roundHalfEven b - roundHalfEven a ≤ L + 1 := by
    have : (roundHalfEven b : ℚ) - roundHalfEven a ≤ (L : ℚ) + 1 := by linarith
    exact_mod_cast this
  rcases lt_or_eq_of_le hle with hlt | heq
  · omega
  · exfalso
    have hcast : (roundHalfEven b : ℚ) - roundHalfEven a = (L : ℚ) + 1 := by
      exact_mod_cast congrArg (fun n : ℤ => (n : ℚ)) heq
    have hb : (roundHalfEven b : ℚ) = b + 1/2 := by linarith
    have ha : (roundHalfEven a : ℚ) = a - 1/2 := by linarith
    have hbe := roundHalfEven_even_of_eq_add_half hb
    have hae := roundHalfEven_even_of_eq_sub_half ha
    omega

/-! ### Scalar facts about the asymmetric quantizer -/

lemma two_pow_sub_one_pos {n_bit : ℕ} (h : 1 ≤ n_bit) :
    0 < (2 : ℚ) ^ n_bit - 1 := by
  have h2 : (2 : ℚ) ^ 1 ≤ 2 ^ n_bit := pow_le_pow_right₀ (by norm_num) h
  norm_num at h2
  linarith

lemma stepsize_pos {n_bit : ℕ} {cl cu : ℚ} (hn : 1 ≤ n_bit) (hcl : cl < cu) :
    0 < stepsize n_bit cl cu :=
  div_pos (by linarith) (two_pow_sub_one_pos hn)

lemma clampQ_mem (x : ℚ) {cl cu : ℚ} (h : cl ≤ cu) :
    cl ≤ clampQ x cl cu ∧ clampQ x cl cu ≤ cu := by
  unfold clampQ
  constructor
  · exact le_min (le_max_right x cl) h
  · exact min_le_right _ _

lemma clampQ_eq_self {x cl cu : ℚ} (h1 : cl ≤ x) (h2 : x ≤ cu) :
    clampQ x cl cu = x := by
  unfold clampQ
  rw [max_eq_left h1, min_eq_left h2]

lemma sub_div_stepsize {n_bit : ℕ} {cl cu : ℚ} (hn : 1 ≤ n_bit) (hcl : cl < cu) :
    (cu - cl) / stepsize n_bit cl cu = 2 ^ n_bit - 1 := by
  have h1 : (2 : ℚ) ^ n_bit - 1 ≠ 0 := ne_of_gt (two_pow_sub_one_pos hn)
  have h2 : cu - cl ≠ 0 := by linarith
  unfold stepsize
  field_simp

lemma y_scaled_mem (x : ℚ) {n_bit : ℕ} {cl cu : ℚ}
    (hn : 1 ≤ n_bit) (hcl : cl < cu) :
    0 ≤ y_scaled x n_bit cl cu ∧ y_scaled x n_bit cl cu ≤ 2 ^ n_bit - 1 := by
  have hstep := stepsize_pos hn hcl
  have hc := clampQ_mem x (le_of_lt hcl)
  constructor
  · exact div_nonneg (by linarith [hc.1]) (le_of_lt hstep)
  · unfold y_scaled
    calc (clampQ x cl cu - cl) / stepsize n_bit cl cu
        ≤ (cu - cl) / stepsize n_bit cl cu :=
          (div_le_div_iff_of_pos_right hstep).mpr (by linarith [hc.2])
      _ = 2 ^ n_bit - 1 := sub_div_stepsize hn hcl

lemma y_int_mem (x : ℚ) {n_bit : ℕ} {cl cu : ℚ}
    (hn : 1 ≤ n_bit) (hcl : cl < cu) :
    0 ≤ y_int x n_bit cl cu ∧ y_int x n_bit cl cu ≤ 2 ^ n_bit - 1 := by
  obtain ⟨hs0, hs1⟩ := y_scaled_mem x hn hcl
  constructor
  · exact int_le_roundHalfEven (by exact_mod_cast hs0)
  · exact roundHalfEven_le_int (by exact_mod_cast hs1)

lemma int_mul_stepsize_le {n_bit : ℕ} {cl cu : ℚ} {k : ℤ}
    (hn : 1 ≤ n_bit) (hcl : cl < cu) (hk : k ≤ 2 ^ n_bit - 1) :
    (k : ℚ) * stepsize n_bit cl cu ≤ cu - cl := by
  have hstep := stepsize_pos hn hcl
  have h1 : (2 : ℚ) ^ n_bit - 1 ≠ 0 := ne_of_gt (two_pow_sub_one_pos hn)
  have hkq : (k : ℚ) ≤ 2 ^ n_bit - 1 := by exact_mod_cast hk
  calc (k : ℚ) * stepsize n_bit cl cu
      ≤ ((2 : ℚ) ^ n_bit - 1) * stepsize n_bit cl cu :=
        mul_le_mul_of_nonneg_right hkq (le_of_lt hstep)
    _ = cu - cl := by unfold stepsize; field_simp

lemma simpleQuantizer_mem (x : ℚ) {n_bit : ℕ} {cl cu : ℚ}
    (hn : 1 ≤ n_bit) (hcl : cl < cu) :
    cl ≤ simpleQuantizer x n_bit cl cu ∧ simpleQuantizer x n_bit cl cu ≤ cu := by
  obtain ⟨hi0, hi1⟩ := y_int_mem x hn hcl
  have hstep := stepsize_pos hn hcl
  unfold simpleQuantizer
  constructor
  · have : (0 : ℚ) ≤ (y_int x n_bit cl cu : ℚ) * stepsize n_bit cl cu :=
      mul_nonneg (by exact_mod_cast hi0) (le_of_lt hstep)
    linarith
  · have := int_mul_stepsize_le (k := y_int x n_bit cl cu) hn hcl hi1
    linarith

/-- The output is the representable level of its own integer code: quantizing
it again reproduces exactly the same value. -/
lemma simpleQuantizer_fixed {x : ℚ} {n_bit : ℕ} {cl cu : ℚ}
    (hn : 1 ≤ n_bit) (hcl : cl < cu) :
    simpleQuantizer (simpleQuantizer x n_bit cl cu) n_bit cl cu
      = simpleQuantizer x n_bit cl cu := by
  have hstep := stepsize_pos hn hcl
  have hmem := simpleQuantizer_mem x hn hcl
  set v := simpleQuantizer x n_bit cl cu with hv
  have hclamp : clampQ v cl cu = v := clampQ_eq_self hmem.1 hmem.2
  have hscaled : y_scaled v n_bit cl cu = (y_int x n_bit cl cu : ℚ) := by
    unfold y_scaled
    rw [hclamp, hv]
    unfold simpleQuantizer
    field_simp
  show y_int v n_bit cl cu * stepsize n_bit cl cu + cl = v
  unfold y_int
  rw [hscaled, roundHalfEven_intCast]
  rw [hv]
  unfold simpleQuantizer
  ring

lemma simpleQuantizer_mono {a b : ℚ} {n_bit : ℕ} {cl cu : ℚ}
    (hn : 1 ≤ n_bit) (hcl : cl < cu) (hab : a ≤ b) :
    simpleQuantizer a n_bit cl cu ≤ simpleQuantizer b n_bit cl cu := by
  have hstep := stepsize_pos hn hcl
  have hclamp : clampQ a cl cu ≤ clampQ b cl cu := by
    unfold clampQ
    exact min_le_min (max_le_max hab le_rfl) le_rfl
  have hscaled : y_scaled a n_bit cl cu ≤ y_scaled b n_bit cl cu := by
    unfold y_scaled
    exact (div_le_div_iff_of_pos_right hstep).mpr (by linarith [hclamp])
  have hcode : y_int a n_bit cl cu ≤ y_int b n_bit cl cu :=
    roundHalfEven_mono hscaled
  unfold simpleQuantizer
  have : (y_int a n_bit cl cu : ℚ) * stepsize n_bit cl cu
      ≤ (y_int b n_bit cl cu : ℚ) * stepsize n_bit cl cu :=
    mul_le_mul_of_nonneg_right (by exact_mod_cast hcode) (le_of_lt hstep)
  linarith

/-! ### Facts about the symmetric quantizer -/

lemma two_pow_sub_two_pos {n_bit : ℕ} (h : 2 ≤ n_bit) :
    0 < (2 : ℚ) ^ n_bit - 2 := by
  have h2 : (2 : ℚ) ^ 2 ≤ 2 ^ n_bit := pow_le_pow_right₀ (by norm_num) h
  norm_num at h2
  linarith

lemma clip_min_i_le (cl cu : ℚ) : clip_min_i cl cu ≤ cl := by
  unfold clip_min_i
  have h1 : |cl| ≤ max cu |cl| := le_max_right cu |cl|
  have h2 : -cl ≤ |cl| := neg_le_abs cl
  linarith

lemma symScale_pos {n_bit : ℕ} {cl cu : ℚ} (hn : 2 ≤ n_bit) (hcl : cl < cu) :
    0 < symScale n_bit cl cu := by
  apply div_pos _ (two_pow_sub_two_pos hn)
  have := clip_min_i_le cl cu
  linarith

lemma symCode_mem {x : ℚ} {n_bit : ℕ} {cl cu : ℚ}
    (hn : 2 ≤ n_bit) (hcl : cl < cu) :
    roundHalfEven (cl / symScale n_bit cl cu) ≤ symCode x n_bit cl cu ∧
      symCode x n_bit cl cu ≤ roundHalfEven (cu / symScale n_bit cl cu) := by
  have hs := symScale_pos hn hcl
  have hc := clampQ_mem x (le_of_lt hcl)
  unfold symCode
  constructor
  · apply roundHalfEven_mono
    rw [sub_zero]
    exact (div_le_div_iff_of_pos_right hs).mpr hc.1
  · apply roundHalfEven_mono
    rw [sub_zero]
    exact (div_le_div_iff_of_pos_right hs).mpr hc.2

/-- The symmetric code interval spans at most `2^n_bit - 2` steps:
the scaled clip range `(cu - cl)/scale` is at most `2^n_bit - 2` because the
effective symmetric range `[clip_min_i, clip_max]` contains `[cl, cu]`. -/
lemma symCode_span {n_bit : ℕ} {cl cu : ℚ} (hn : 2 ≤ n_bit) (hcl : cl < cu) :
    roundHalfEven (cu / symScale n_bit cl cu)
      - roundHalfEven (cl / symScale n_bit cl cu) ≤ 2 ^ n_bit - 2 := by
  have hs := symScale_pos hn hcl
  have hL : ((2 ^ n_bit - 2 : ℤ) : ℚ) = (2 : ℚ) ^ n_bit - 2 := by push_cast; ring
  apply roundHalfEven_sub_le_of_even
  · have h1 : (2 : ℤ) ^ n_bit = 2 * 2 ^ (n_bit - 1) := by
      rw [← pow_succ']
      congr 1
      omega
    omega
  · rw [hL, div_sub_div_same]
    have hle : cu - cl ≤ cu - clip_min_i cl cu := by
      have := clip_min_i_le cl cu
      linarith
    have hL2 := two_pow_sub_two_pos hn
    calc (cu - cl) / symScale n_bit cl cu
        ≤ (cu - clip_min_i cl cu) / symScale n_bit cl cu :=
          (div_le_div_iff_of_pos_right hs).mpr hle
      _ = 2 ^ n_bit - 2 := by
          have hpos : (0 : ℚ) < cu - clip_min_i cl cu := by
            have := clip_min_i_le cl cu
            linarith
          have hL3 : (2 : ℚ) ^ n_bit - 2 ≠ 0 := ne_of_gt (two_pow_sub_two_pos hn)
          unfold symScale
          field_simp

/-- Distinct-output bound, asymmetric: all outputs are of the form
`k * stepsize + clip_min` with `k ∈ [0, 2^n_bit - 1]`. -/
lemma simpleQuantizer_card_le {l : List ℚ} {n_bit : ℕ} {cl cu : ℚ}
    (hn : 1 ≤ n_bit) (hcl : cl < cu) :
    (l.map (fun x => simpleQuantizer x n_bit cl cu)).toFinset.card ≤ 2 ^ n_bit := by
  have hsub : (l.map (fun x => simpleQuantizer x n_bit cl cu)).toFinset ⊆
      (Finset.Icc (0 : ℤ) (2 ^ n_bit - 1)).image
        (fun k : ℤ => (k : ℚ) * stepsize n_bit cl cu + cl) := by
    intro y hy
    rw [List.mem_toFinset, List.mem_map] at hy
    obtain ⟨x, _, rfl⟩ := hy
    refine Finset.mem_image.mpr ⟨y_int x n_bit cl cu, ?_, rfl⟩
    rw [Finset.mem_Icc]
    exact y_int_mem x hn hcl
  calc (l.map (fun x => simpleQuantizer x n_bit cl cu)).toFinset.card
      ≤ ((Finset.Icc (0 : ℤ) (2 ^ n_bit - 1)).image
        (fun k : ℤ => (k : ℚ) * stepsize n_bit cl cu + cl)).card :=
        Finset.card_le_card hsub
    _ ≤ (Finset.Icc (0 : ℤ) (2 ^ n_bit - 1)).card := Finset.card_image_le
    _ ≤ 2 ^ n_bit := by
        rw [Int.card_Icc]
        have h1 : (0 : ℤ) < 2 ^ n_bit := pow_pos (by norm_num) n_bit
        have h2 : ((2 ^ n_bit : ℕ) : ℤ) = 2 ^ n_bit := by push_cast; ring
        omega

/-- Distinct-output bound, symmetric: all outputs are of the form
`k * scale + 0` with `k` in an integer interval of width `2^n_bit - 2`. -/
lemma symQuantizer_card_le {l : List ℚ} {n_bit : ℕ} {cl cu : ℚ}
    (hn : 2 ≤ n_bit) (hcl : cl < cu) :
    (l.map (fun x => symQuantizer x n_bit cl cu)).toFinset.card ≤ 2 ^ n_bit - 1 := by
  have hsub : (l.map (fun x => symQuantizer x n_bit cl cu)).toFinset ⊆
      (Finset.Icc (roundHalfEven (cl / symScale n_bit cl cu))
          (roundHalfEven (cu / symScale n_bit cl cu))).image
        (fun k : ℤ => (k : ℚ) * symScale n_bit cl cu + 0) := by
    intro y hy
    rw [List.mem_toFinset, List.mem_map] at hy
    obtain ⟨x, _, rfl⟩ := hy
    refine Finset.mem_image.mpr ⟨symCode x n_bit cl cu, ?_, rfl⟩
    rw [Finset.mem_Icc]
    exact symCode_mem hn hcl
  have hspan := symCode_span hn hcl
  calc (l.map (fun x => symQuantizer x n_bit cl cu)).toFinset.card
      ≤ _ := Finset.card_le_card hsub
    _ ≤ (Finset.Icc (roundHalfEven (cl / symScale n_bit cl cu))
          (roundHalfEven (cu / symScale n_bit cl cu))).card := Finset.card_image_le
    _ ≤ 2 ^ n_bit - 1 := by
        rw [Int.card_Icc]
        have h1 : (4 : ℤ) ≤ 2 ^ n_bit := by
          calc (4 : ℤ) = 2 ^ 2 := by norm_num
            _ ≤ 2 ^ n_bit := pow_le_pow_right₀ (by norm_num) hn
        have h2 : ((2 ^ n_bit - 1 : ℕ) : ℤ) = 2 ^ n_bit - 1 := by
          have : (1 : ℕ) ≤ 2 ^ n_bit := Nat.one_le_two_pow
          push_cast [this]
          ring
        omega

/-- Representable symmetric levels with the notebook's demo parameters are
fixed points of the symmetric quantizer. -/
lemma symQuantizer_fixed_level {k : ℤ} (hk1 : -7 ≤ k) (hk2 : k ≤ 7) :
    symQuantizer ((k : ℚ) * (5/14)) 4 (-5/2) (5/2) = (k : ℚ) * (5/14) := by
  have hkq1 : (-7 : ℚ) ≤ (k : ℚ) := by exact_mod_cast hk1
  have hkq2 : (k : ℚ) ≤ 7 := by exact_mod_cast hk2
  have hclamp : clampQ ((k : ℚ) * (5/14)) (-5/2) (5/2) = (k : ℚ) * (5/14) := by
    apply clampQ_eq_self <;> nlinarith
  have hscale : symScale 4 (-5/2) (5/2) = 5/14 := by
    norm_num [symScale, clip_min_i, abs_of_nonneg, max_self]
  have hscaled : ((k : ℚ) * (5/14) - 0) / (5/14) = (k : ℚ) := by
    field_simp
  unfold symQuantizer symCode
  rw [hscale, hclamp, hscaled, roundHalfEven_intCast]
  ring

/-! ### Claims -/

/-- C1 counterexample: at input `-1/3` with `bit_width = 4`,
`clip_lower = -5/2`, `clip_upper = 5/2` the clamped-and-scaled value is exactly
`13/2`.  The implementation (`torch.round`, ties to even) gives code 6 and
output `-1/2`, while the spec's six-step algorithm with its stated reference
rounding (ties away from zero) gives code 7 and output `-1/6`, so the
implementation does not compute the spec's algorithm exactly. -/
theorem C1_counterexample :
    simpleQuantizer (-1/3) 4 (-5/2) (5/2) = -1/2 ∧
    quantizeSpecAsym (-1/3) 4 (-5/2) (5/2) = -1/6 ∧
    simpleQuantizer (-1/3) 4 (-5/2) (5/2) ≠ quantizeSpecAsym (-1/3) 4 (-5/2) (5/2) := by
  norm_num [simpleQuantizer, y_int, y_scaled, stepsize, clampQ, roundHalfEven,
    quantizeSpecAsym, roundHalfAwayFromZero]

/-- C1 (amended): for every input and all parameters, the quantizer output
equals `roundTiesToEven((clamp(x, clip_lower, clip_upper) - clip_lower) /
step_size) * step_size + clip_lower` with
`step_size = (clip_upper - clip_lower) / (2^bit_width - 1)` and
`zero_point = clip_lower`: the six-step clip-scale-round-dequantize algorithm
with round-half-to-even in the rounding step. -/
theorem C1_asym_algorithm (x : ℚ) (n_bit : ℕ) (cl cu : ℚ) :
    simpleQuantizer x n_bit cl cu =
      (roundHalfEven ((clampQ x cl cu - cl) / ((cu - cl) / (2 ^ n_bit - 1))) : ℚ)
        * ((cu - cl) / (2 ^ n_bit - 1)) + cl :=
  rfl

/-- C2: for every input array and valid parameters (`bit_width ≥ 1`,
`clip_lower < clip_upper`), every element of the quantized output lies in the
closed interval `[clip_lower, clip_upper]`. -/
theorem C2_range (l : List ℚ) (n_bit : ℕ) (cl cu : ℚ)
    (hn : 1 ≤ n_bit) (hcl : cl < cu) :
    ∀ y ∈ l.map (fun x => simpleQuantizer x n_bit cl cu), cl ≤ y ∧ y ≤ cu := by
  intro y hy
  rw [List.mem_map] at hy
  obtain ⟨x, _, rfl⟩ := hy
  exact simpleQuantizer_mem x hn hcl

/-- Witness for C2 at `bit_width = 4`, bounds `±5/2`, inputs `[0, 3, -7]`,
instantiated at the output element coming from input `3`. -/
theorem C2_range_witness :
    (-5/2 : ℚ) ≤ simpleQuantizer 3 4 (-5/2) (5/2) ∧
      simpleQuantizer 3 4 (-5/2) (5/2) ≤ 5/2 :=
  C2_range [0, 3, -7] 4 (-5/2) (5/2) (by norm_num) (by norm_num)
    (simpleQuantizer 3 4 (-5/2) (5/2))
    (List.mem_map.mpr ⟨3, by norm_num, rfl⟩)

/-- C3 counterexample: calling the quantizer with
`clip_lower = 1, clip_upper = -1` (reversed bounds) does not raise any error:
it silently returns a value (`-1`, every input being clamp-coerced to the
upper bound).  No `InvalidParameter` error exists anywhere in the code. -/
theorem C3_counterexample :
    simpleQuantizerRun 0 4 1 (-1) = Except.ok (-1) := by
  norm_num [simpleQuantizerRun, simpleQuantizer, y_int, y_scaled, stepsize,
    clampQ, roundHalfEven]

/-- C3 (amended): `simpleQuantizer` performs no parameter validation.  With
`bit_width = 0` it fails with a `ZeroDivisionError` coming from the step-size
division (not a synchronous `InvalidParameter` check); with any
`bit_width ≥ 1` it returns a value for every pair of clip bounds, including
reversed ones, which are silently coerced by the clamp. -/
theorem C3_no_validation (x : ℚ) (cl cu : ℚ) (n_bit : ℕ) (hn : 1 ≤ n_bit) :
    simpleQuantizerRun x 0 cl cu = Except.error PyError.zeroDivisionError ∧
    simpleQuantizerRun x n_bit cl cu = Except.ok (simpleQuantizer x n_bit cl cu) := by
  constructor
  · norm_num [simpleQuantizerRun]
  · have h := two_pow_sub_one_pos hn
    unfold simpleQuantizerRun
    rw [if_neg (ne_of_gt h)]

/-- Witness for C3 (amended) at `x = 0`, reversed bounds `1 > -1`,
`bit_width = 4`. -/
theorem C3_no_validation_witness :
    simpleQuantizerRun 0 0 1 (-1) = Except.error PyError.zeroDivisionError ∧
    simpleQuantizerRun 0 4 1 (-1) = Except.ok (simpleQuantizer 0 4 1 (-1)) :=
  ⟨(C3_no_validation 0 1 (-1) 4 (by norm_num)).1,
   (C3_no_validation 0 1 (-1) 4 (by norm_num)).2⟩

/-- C4 counterexample: in symmetric mode with `bit_width = 4` and clip bounds
`±5/2` (so `scale = 5/14`), the 15 inputs `k * 5/14`, `k = -7..7`, are each
their own quantized value, so the output has `15 = 2^4 - 1` distinct values,
exceeding the claimed bound `2^4 - 2 = 14`. -/
theorem C4_counterexample :
    ¬ (((List.range 15).map
          (fun i : ℕ => symQuantizer (((i : ℚ) - 7) * (5/14)) 4 (-5/2) (5/2))).toFinset.card
        ≤ 2 ^ 4 - 2) := by
  intro hcard
  have hmap : (List.range 15).map
      (fun i : ℕ => symQuantizer (((i : ℚ) - 7) * (5/14)) 4 (-5/2) (5/2))
      = (List.range 15).map (fun i : ℕ => ((i : ℚ) - 7) * (5/14)) := by
    apply List.map_congr_left
    intro i hi
    have hi15 : i < 15 := List.mem_range.mp hi
    have hcast : ((i : ℚ) - 7) = (((i : ℤ) - 7 : ℤ) : ℚ) := by push_cast; ring
    rw [hcast]
    exact symQuantizer_fixed_level (by omega) (by omega)
  rw [hmap] at hcard
  have hnodup : ((List.range 15).map (fun i : ℕ => ((i : ℚ) - 7) * (5/14))).Nodup := by
    refine List.Nodup.map ?_ (List.nodup_range 15)
    intro a b hab
    have h1 : (a : ℚ) - 7 = (b : ℚ) - 7 :=
      mul_right_cancel₀ (by norm_num) hab
    have h2 : (a : ℚ) = b := by linarith
    exact_mod_cast h2
  rw [List.toFinset_card_of_nodup hnodup, List.length_map, List.length_range] at hcard
  omega

/-- C4 (amended): the set of distinct output values has cardinality at most
`2^bit_width` in asymmetric mode (`bit_width ≥ 1`) and at most
`2^bit_width - 1` — not `2^bit_width - 2` — in symmetric mode
(`bit_width ≥ 2`), regardless of the input array's size. -/
theorem C4_discreteness :
    (∀ (l : List ℚ) (n_bit : ℕ) (cl cu : ℚ), 1 ≤ n_bit → cl < cu →
      (l.map (fun x => simpleQuantizer x n_bit cl cu)).toFinset.card ≤ 2 ^ n_bit) ∧
    (∀ (l : List ℚ) (n_bit : ℕ) (cl cu : ℚ), 2 ≤ n_bit → cl < cu →
      (l.map (fun x => symQuantizer x n_bit cl cu)).toFinset.card ≤ 2 ^ n_bit - 1) :=
  ⟨fun _ _ _ _ hn hcl => simpleQuantizer_card_le hn hcl,
   fun _ _ _ _ hn hcl => symQuantizer_card_le hn hcl⟩

/-- Witness for C4 (amended) at `bit_width = 4`, bounds `±5/2`,
inputs `[0, 1, 3]`. -/
theorem C4_discreteness_witness :
    (([0, 1, 3] : List ℚ).map (fun x => simpleQuantizer x 4 (-5/2) (5/2))).toFinset.card
        ≤ 2 ^ 4 ∧
    (([0, 1, 3] : List ℚ).map (fun x => symQuantizer x 4 (-5/2) (5/2))).toFinset.card
        ≤ 2 ^ 4 - 1 :=
  ⟨C4_discreteness.1 [0, 1, 3] 4 (-5/2) (5/2) (by norm_num) (by norm_num),
   C4_discreteness.2 [0, 1, 3] 4 (-5/2) (5/2) (by norm_num) (by norm_num)⟩

/-- C5: quantization is idempotent in exact arithmetic: re-quantizing the
output array with the same valid parameters returns the same array, element
for element. -/
theorem C5_idempotent (l : List ℚ) (n_bit : ℕ) (cl cu : ℚ)
    (hn : 1 ≤ n_bit) (hcl : cl < cu) :
    (l.map (fun x => simpleQuantizer x n_bit cl cu)).map
        (fun x => simpleQuantizer x n_bit cl cu)
      = l.map (fun x => simpleQuantizer x n_bit cl cu) := by
  rw [List.map_map]
  apply List.map_congr_left
  intro x _
  simp only [Function.comp_apply]
  exact simpleQuantizer_fixed hn hcl

/-- Witness for C5 at `bit_width = 4`, bounds `±5/2`, inputs `[0, 11/7, 3]`. -/
theorem C5_idempotent_witness :
    (([0, 11/7, 3] : List ℚ).map (fun x => simpleQuantizer x 4 (-5/2) (5/2))).map
        (fun x => simpleQuantizer x 4 (-5/2) (5/2))
      = ([0, 11/7, 3] : List ℚ).map (fun x => simpleQuantizer x 4 (-5/2) (5/2)) :=
  C5_idempotent [0, 11/7, 3] 4 (-5/2) (5/2) (by norm_num) (by norm_num)

/-- C6: quantization is monotone: for scalar inputs `a ≤ b`, both inside
`[clip_lower, clip_upper]`, with fixed valid parameters,
`quantize a ≤ quantize b`. -/
theorem C6_monotone (a b : ℚ) (n_bit : ℕ) (cl cu : ℚ)
    (hn : 1 ≤ n_bit) (hcl : cl < cu)
    (_ha1 : cl ≤ a) (_ha2 : a ≤ cu) (_hb1 : cl ≤ b) (_hb2 : b ≤ cu) (hab : a ≤ b) :
    simpleQuantizer a n_bit cl cu ≤ simpleQuantizer b n_bit cl cu :=
  simpleQuantizer_mono hn hcl hab

/-- Witness for C6 at `a = 0 ≤ b = 1`, `bit_width = 4`, bounds `±5/2`. -/
theorem C6_monotone_witness :
    simpleQuantizer 0 4 (-5/2) (5/2) ≤ simpleQuantizer 1 4 (-5/2) (5/2) :=
  C6_monotone 0 1 4 (-5/2) (5/2) (by norm_num) (by norm_num) (by norm_num)
    (by norm_num) (by norm_num) (by norm_num) (by norm_num)

/-- C7: concrete asymmetric case, `bit_width = 4`, bounds `±5/2`
(`step_size = 1/3`): input `0` has scaled value `7.5`, integer code `8`, and
output `8 × (1/3) + (-5/2) = 1/6 = 0.1666...`; input `3` clamps to `5/2`,
has scaled value `15`, and output exactly `5/2`. -/
theorem C7_concrete_asym :
    stepsize 4 (-5/2) (5/2) = 1/3 ∧
    y_scaled 0 4 (-5/2) (5/2) = 15/2 ∧
    y_int 0 4 (-5/2) (5/2) = 8 ∧
    simpleQuantizer 0 4 (-5/2) (5/2) = 8 * (1/3) + (-5/2) ∧
    clampQ 3 (-5/2) (5/2) = 5/2 ∧
    y_scaled 3 4 (-5/2) (5/2) = 15 ∧
    simpleQuantizer 3 4 (-5/2) (5/2) = 5/2 := by
  norm_num [simpleQuantizer, y_int, y_scaled, stepsize, clampQ, roundHalfEven]

/-- C8: the symmetric quantizer uses
`clip_lower_effective = -max(clip_upper, |clip_lower|)`, `zero_point = 0` and
`step_size = (clip_upper - clip_lower_effective) / (2^bit_width - 2)`;
concretely with `bit_width = 4`, bounds `±5/2`: `step_size = 5/14`, and input
`0` has code `0` and output exactly `0`. -/
theorem C8_concrete_sym :
    (∀ (n_bit : ℕ) (cl cu : ℚ),
      symScale n_bit cl cu = (cu - (-max cu |cl|)) / (2 ^ n_bit - 2)) ∧
    (∀ (x : ℚ) (n_bit : ℕ) (cl cu : ℚ),
      symQuantizer x n_bit cl cu
        = (symCode x n_bit cl cu : ℚ) * symScale n_bit cl cu + 0) ∧
    symScale 4 (-5/2) (5/2) = 5/14 ∧
    symCode 0 4 (-5/2) (5/2) = 0 ∧
    symQuantizer 0 4 (-5/2) (5/2) = 0 := by
  refine ⟨fun n cl cu => rfl, fun x n cl cu => rfl, ?_, ?_, ?_⟩ <;>
    norm_num [symQuantizer, symCode, symScale, clip_min_i, clampQ, roundHalfEven,
      abs_of_nonneg, max_self]

/-- C9 counterexample: input `-1/3` (with `bit_width = 4`, bounds `±5/2`) has
clamped-and-scaled value exactly `6.5`, a half-integer; the implementation's
rounding maps it to `6` (ties to even), not to `7` (ties away from zero) as
the claim states. -/
theorem C9_counterexample :
    y_scaled (-1/3) 4 (-5/2) (5/2) = 13/2 ∧
    y_int (-1/3) 4 (-5/2) (5/2) = 6 ∧
    y_int (-1/3) 4 (-5/2) (5/2) ≠ 7 := by
  norm_num [y_int, y_scaled, stepsize, clampQ, roundHalfEven]

/-- C9 (amended): the rounding step breaks half-way cases toward the even
integer: for every input whose clamped-and-scaled value is an exact
half-integer `k + 1/2`, the integer code is `k` or `k + 1`, whichever is even
(so `6.5 ↦ 6` and `7.5 ↦ 8`). -/
theorem C9_ties_to_even (x : ℚ) (n_bit : ℕ) (cl cu : ℚ) (k : ℤ)
    (h : y_scaled x n_bit cl cu = (k : ℚ) + 1/2) :
    (y_int x n_bit cl cu = k ∨ y_int x n_bit cl cu = k + 1) ∧
    y_int x n_bit cl cu % 2 = 0 := by
  have hfl : ⌊(k : ℚ) + 1/2⌋ = k := by
    rw [add_comm, Int.floor_add_int]
    norm_num
  unfold y_int
  rw [h]
  rcases roundHalfEven_eq_floor_or_succ ((k : ℚ) + 1/2) with h' | h'
  · refine ⟨Or.inl (by rw [h', hfl]), ?_⟩
    apply roundHalfEven_even_of_eq_sub_half
    rw [h', hfl]
    ring
  · refine ⟨Or.inr (by rw [h', hfl]), ?_⟩
    apply roundHalfEven_even_of_eq_add_half
    rw [h', hfl]
    push_cast
    ring

/-- Witness for C9 (amended) at input `-1/3` (scaled value `6 + 1/2`),
`bit_width = 4`, bounds `±5/2`. -/
theorem C9_ties_to_even_witness :
    (y_int (-1/3) 4 (-5/2) (5/2) = 6 ∨ y_int (-1/3) 4 (-5/2) (5/2) = 6 + 1) ∧
    y_int (-1/3) 4 (-5/2) (5/2) % 2 = 0 :=
  C9_ties_to_even (-1/3) 4 (-5/2) (5/2) 6
    (by norm_num [y_scaled, stepsize, clampQ])

/-- C10: quantization-error bound: in asymmetric mode with valid parameters,
for every input already inside `[clip_lower, clip_upper]`,
`|quantize(x) - x| ≤ step_size / 2` in exact rational arithmetic. -/
theorem C10_error_bound (x : ℚ) (n_bit : ℕ) (cl cu : ℚ)
    (hn : 1 ≤ n_bit) (hcl : cl < cu) (hx1 : cl ≤ x) (hx2 : x ≤ cu) :
    |simpleQuantizer x n_bit cl cu - x| ≤ stepsize n_bit cl cu / 2 := by
  have hstep := stepsize_pos hn hcl
  have hclamp := clampQ_eq_self hx1 hx2
  have hxs : y_scaled x n_bit cl cu * stepsize n_bit cl cu = x - cl := by
    unfold y_scaled
    rw [hclamp]
    field_simp
  have key : simpleQuantizer x n_bit cl cu - x
      = ((y_int x n_bit cl cu : ℚ) - y_scaled x n_bit cl cu)
          * stepsize n_bit cl cu := by
    unfold simpleQuantizer
    rw [sub_mul, hxs]
    ring
  rw [key, abs_mul, abs_of_pos hstep]
  have h1 : |(y_int x n_bit cl cu : ℚ) - y_scaled x n_bit cl cu| ≤ 1/2 :=
    roundHalfEven_abs_sub_le (y_scaled x n_bit cl cu)
  have h2 := mul_le_mul_of_nonneg_right h1 (le_of_lt hstep)
  linarith

/-- Witness for C10 at `x = 1 ∈ [-5/2, 5/2]`, `bit_width = 4`. -/
theorem C10_error_bound_witness :
    |simpleQuantizer 1 4 (-5/2) (5/2) - 1| ≤ stepsize 4 (-5/2) (5/2) / 2 :=
  C10_error_bound 1 4 (-5/2) (5/2) (by norm_num) (by norm_num) (by norm_num)
    (by norm_num)

end QuantTutorial
